import Mathlib

/-!
Verification development for the entity-resolution and tiered-merge pipeline
of the AI startup directory repository.

The reconciliation core (Normalizer, Deduplicator, TieredMerger,
ConfidenceGate, IntegrityValidator) is specified in the repository's design
documents (`docs/redesign-v3.md`, the v2/v3 redesign plans and the READMEs);
its Python implementation (`scrapers/enrichment/*.py`) is not part of the
sources available here, so those components are modelled from the
specification's words.  The website's read interface (`lib/data.ts`) is
present in source form and is embedded directly.
-/

namespace AIStartups

/-- Modelled from the spec: the four fixed trust tiers of a data source
(Tier 1 authoritative APIs, Tier 2 open web, Tier 3 machine-inferred,
Tier 4 discovery-only signals), represented as a closed enumeration as the
design notes require. -/
inductive Tier
  | t1
  | t2
  | t3
  | t4
deriving DecidableEq, Repr

/-- The ordinal level of a tier: numerically lower = more trusted. -/
def Tier.toNat : Tier → Nat
  | .t1 => 1
  | .t2 => 2
  | .t3 => 3
  | .t4 => 4

/-- Modelled from the spec: Provenance, attached to every non-null field of a
CanonicalEntity: source name, tier, confidence (0.0–1.0, modelled as ℚ) and
write timestamp. -/
structure Provenance where
  source_name : String
  tier : Tier
  confidence : ℚ
  written_at : Nat
deriving DecidableEq, Repr

/-- Modelled from the spec: a SourceRecord — an immutable snapshot of facts
about one entity as seen by one source: source name, trust tier, entity kind,
a sparse field map, a per-field confidence, an observation timestamp and the
candidate identity hints (display name, primary-URL host, proposed slug) used
only for matching. -/
structure SourceRecord where
  source_name : String
  source_tier : Tier
  entity_kind : String
  fields : List (String × String)
  conf : String → ℚ
  observed_at : Nat
  hint_name : String
  hint_host : Option String
  hint_slug : String

/-- Modelled from the spec: a CanonicalEntity — the durable merged record for
one real-world entity: a stable slug, the entity kind, a mapping field → value
and a mapping field → Provenance. -/
structure CanonicalEntity where
  slug : String
  entity_kind : String
  value : String → Option String
  prov : String → Option Provenance

/-- Looking a field up in a SourceRecord's sparse field map. -/
def lookupField (fields : List (String × String)) (f : String) : Option String :=
  (fields.find? (fun kv => kv.1 = f)).map (·.2)

/-- Modelled from the spec: the TieredMerger's per-field write decision.
An unset target field is written by tiers 1–3; a set field is overwritten
only by a strictly more trusted (numerically lower) tier, and never by
tier 3; tier 4 never writes fields at all. -/
def shouldWrite : Tier → Option Provenance → Bool
  | .t4, _ => false
  | .t3, none => true
  | .t3, some _ => false
  | _, none => true
  | t, some q => decide (t.toNat < q.tier.toNat)

/-- Modelled from the spec: the TieredMerger applied to one SourceRecord and
one CanonicalEntity.  For each field present in the record it either writes
value + fresh Provenance (when `shouldWrite` allows it) or leaves the field
and its provenance untouched; fields absent from the record are untouched. -/
def mergeRecord (now : Nat) (r : SourceRecord) (e : CanonicalEntity) : CanonicalEntity :=
  { e with
    value := fun f =>
      match lookupField r.fields f with
      | none => e.value f
      | some v => if shouldWrite r.source_tier (e.prov f) then some v else e.value f
    prov := fun f =>
      match lookupField r.fields f with
      | none => e.prov f
      | some _ =>
        if shouldWrite r.source_tier (e.prov f) then
          some ⟨r.source_name, r.source_tier, r.conf f, now⟩
        else e.prov f }

/-- A sequence of merges (each with its own clock value) folded onto an
entity. -/
def mergeSeq (rs : List (Nat × SourceRecord)) (e : CanonicalEntity) : CanonicalEntity :=
  rs.foldl (fun acc x => mergeRecord x.1 x.2 acc) e

/-- The provenance-completeness well-formedness predicate on an entity:
a field has a value exactly when it has a (single, since `prov` is a map)
Provenance entry. -/
def wfEntity (e : CanonicalEntity) : Prop :=
  ∀ f, (e.value f).isSome ↔ (e.prov f).isSome

/-- A record never overwrites provenance it has itself just written:
`shouldWrite` is false against a provenance entry carrying the same tier. -/
lemma shouldWrite_same_tier (t : Tier) (q : Provenance) (hq : q.tier = t) :
    shouldWrite t (some q) = false := by
  cases t <;> simp [shouldWrite, hq]

/-- A no-less-trusted record never writes over existing provenance. -/
lemma shouldWrite_of_le (t : Tier) (q : Provenance)
    (h : q.tier.toNat ≤ t.toNat) : shouldWrite t (some q) = false := by
  cases t <;> simp [shouldWrite] <;> omega

/-- One merge step leaves a field's value and provenance unchanged when the
field's existing provenance is at a tier no less trusted than the incoming
record's. -/
lemma merge_keeps_of_le (now : Nat) (r : SourceRecord) (e : CanonicalEntity)
    (f : String) (q : Provenance) (hq : e.prov f = some q)
    (hle : q.tier.toNat ≤ r.source_tier.toNat) :
    (mergeRecord now r e).value f = e.value f ∧
      (mergeRecord now r e).prov f = e.prov f := by
  have hsw : shouldWrite r.source_tier (e.prov f) = false := by
    rw [hq]; exact shouldWrite_of_le _ _ hle
  constructor
  · simp only [mergeRecord]
    cases h : lookupField r.fields f with
    | none => rfl
    | some v => simp [hsw]
  · simp only [mergeRecord]
    cases h : lookupField r.fields f with
    | none => rfl
    | some v => simp [hsw]

/-- If a merge step changes a set field's value, the incoming record's tier is
strictly more trusted than the field's existing provenance tier. -/
lemma merge_changes_lt (now : Nat) (r : SourceRecord) (e : CanonicalEntity)
    (f : String) (q : Provenance) (hq : e.prov f = some q)
    (hch : (mergeRecord now r e).value f ≠ e.value f) :
    r.source_tier.toNat < q.tier.toNat := by
  by_contra hnot
  exact hch (merge_keeps_of_le now r e f q hq (by omega)).1

/-- A tier-3 record never writes over a set field. -/
lemma shouldWrite_t3 (q : Provenance) : shouldWrite .t3 (some q) = false := rfl

/-- A tier-4 record never writes any field. -/
lemma shouldWrite_t4 (p : Option Provenance) : shouldWrite .t4 p = false := by
  cases p <;> rfl

/-- Merging a tier-4 record is the identity on the entity. -/
lemma merge_t4_id (now : Nat) (r : SourceRecord) (e : CanonicalEntity)
    (ht : r.source_tier = .t4) : mergeRecord now r e = e := by
  have hsw : ∀ p, shouldWrite r.source_tier p = false := by
    intro p; rw [ht]; exact shouldWrite_t4 p
  cases e with
  | mk s k val pr =>
    simp only [mergeRecord, CanonicalEntity.mk.injEq, true_and]
    constructor
    · funext f
      cases h : lookupField r.fields f with
      | none => rfl
      | some v => simp [hsw]
    · funext f
      cases h : lookupField r.fields f with
      | none => rfl
      | some v => simp [hsw]

/-- One merge step preserves provenance completeness. -/
lemma merge_preserves_wf (now : Nat) (r : SourceRecord) (e : CanonicalEntity)
    (hwf : wfEntity e) : wfEntity (mergeRecord now r e) := by
  intro f
  simp only [mergeRecord]
  cases h : lookupField r.fields f with
  | none => exact hwf f
  | some v =>
    by_cases hw : shouldWrite r.source_tier (e.prov f) = true
    · simp [hw]
    · simp only [Bool.not_eq_true] at hw
      simp [hw, hwf f]

/-- Merging the same record twice is the same as merging it once, whatever the
clock says at each call. -/
lemma merge_idem (now₁ now₂ : Nat) (r : SourceRecord) (e : CanonicalEntity) :
    mergeRecord now₂ r (mergeRecord now₁ r e) = mergeRecord now₁ r e := by
  cases e with
  | mk s k val pr =>
    simp only [mergeRecord, CanonicalEntity.mk.injEq, true_and]
    constructor
    · funext f
      cases h : lookupField r.fields f with
      | none => simp
      | some v =>
        by_cases hw : shouldWrite r.source_tier (pr f) = true
        · simp [hw, shouldWrite_same_tier]
        · simp only [Bool.not_eq_true] at hw
          simp [hw]
    · funext f
      cases h : lookupField r.fields f with
      | none => simp
      | some v =>
        by_cases hw : shouldWrite r.source_tier (pr f) = true
        · simp [hw, shouldWrite_same_tier]
        · simp only [Bool.not_eq_true] at hw
          simp [hw]

/-! ## Deduplicator

Modelled from the spec: matching rules in strict precedence order — exact
domain match, exact slug match, then fuzzy name match with a fixed 0.85
threshold and a 0.05 ambiguity margin.  A rule that produces exactly one
match wins; a rule that produces several is ambiguous; a rule that produces
none falls through to the next. -/

/-- The Deduplicator's decision for one candidate record. -/
inductive MatchDecision
  | noMatch
  | matched (slug : String)
  | ambiguous (slugs : List String)
deriving DecidableEq, Repr

/-- Modelled from the spec: entities whose indexed domain equals the
candidate's normalized primary-URL host. -/
def domainMatches (r : SourceRecord) (store : List CanonicalEntity) :
    List CanonicalEntity :=
  match r.hint_host with
  | none => []
  | some h => store.filter (fun e => e.value "domain" == some h)

/-- Modelled from the spec: entities whose slug equals the candidate's derived
slug. -/
def slugMatches (r : SourceRecord) (store : List CanonicalEntity) :
    List CanonicalEntity :=
  store.filter (fun e => e.slug == r.hint_slug)

/-- The display name an entity is indexed under. -/
def entityName (e : CanonicalEntity) : String := (e.value "name").getD ""

/-- Modelled from the spec: the (slug, similarity) pairs of existing entities
whose name similarity against the candidate name exceeds the 0.85 threshold;
the similarity measure itself is an external parameter. -/
def fuzzyCandidates (score : String → String → ℚ) (r : SourceRecord)
    (store : List CanonicalEntity) : List (String × ℚ) :=
  (store.map (fun e => (e.slug, score r.hint_name (entityName e)))).filter
    (fun x => decide ((17 / 20 : ℚ) < x.2))

/-- Select the highest-scoring candidate; returns it together with the
remaining candidates. -/
def pickTopAux (c : String × ℚ) : List (String × ℚ) → (String × ℚ) × List (String × ℚ)
  | [] => (c, [])
  | d :: ds =>
    if c.2 < d.2 then
      let p := pickTopAux d ds
      (p.1, c :: p.2)
    else
      let p := pickTopAux c ds
      (p.1, d :: p.2)

lemma pickTopAux_fst_mem (c : String × ℚ) (l : List (String × ℚ)) :
    (pickTopAux c l).1 ∈ c :: l := by
  induction l generalizing c with
  | nil => simp [pickTopAux]
  | cons d ds ih =>
    simp only [pickTopAux]
    by_cases h : c.2 < d.2
    · have h2 := ih d
      simp only [h, if_true, List.mem_cons] at h2 ⊢
      tauto
    · have h2 := ih c
      simp only [h, if_false, List.mem_cons] at h2 ⊢
      tauto

lemma pickTopAux_le (c : String × ℚ) (l : List (String × ℚ)) :
    ∀ x ∈ c :: l, x.2 ≤ (pickTopAux c l).1.2 := by
  induction l generalizing c with
  | nil =>
    intro x hx
    simp only [List.mem_cons, List.not_mem_nil, or_false] at hx
    simp [hx, pickTopAux]
  | cons d ds ih =>
    intro x hx
    simp only [List.mem_cons] at hx
    simp only [pickTopAux]
    by_cases h : c.2 < d.2
    · simp only [h, if_true]
      rcases hx with rfl | rfl | hx
      · exact le_trans (le_of_lt h) (ih d d (by simp))
      · exact ih x x (by simp)
      · exact ih d x (by simp [hx])
    · simp only [h, if_false]
      rcases hx with rfl | rfl | hx
      · exact ih x x (by simp)
      · exact le_trans (not_lt.mp h) (ih c c (by simp))
      · exact ih c x (by simp [hx])

lemma pickTopAux_snd_length (c : String × ℚ) (l : List (String × ℚ)) :
    (pickTopAux c l).2.length = l.length := by
  induction l generalizing c with
  | nil => simp [pickTopAux]
  | cons d ds ih =>
    simp only [pickTopAux]
    by_cases h : c.2 < d.2
    · simp [h, ih d]
    · simp [h, ih c]

/-- Modelled from the spec: resolution of the fuzzy rule.  No candidate above
the threshold means no match; a single candidate is the match; with several,
the highest-scoring one is chosen only when it exceeds the runner-up by the
0.05 margin, otherwise the outcome is ambiguous. -/
def fuzzyResolve : List (String × ℚ) → MatchDecision
  | [] => .noMatch
  | [c] => .matched c.1
  | c :: d :: cs =>
    match pickTopAux c (d :: cs) with
    | (top, []) => .matched top.1
    | (top, e :: es) =>
      if (pickTopAux e es).1.2 + 1 / 20 ≤ top.2 then .matched top.1
      else .ambiguous ((c :: d :: cs).map Prod.fst)

/-- Modelled from the spec: resolution of an exact-match rule.  An empty match
list falls through (`none`), a singleton wins, several matches are ambiguous. -/
def resolveExact (l : List CanonicalEntity) : Option MatchDecision :=
  match l with
  | [] => none
  | [e] => some (.matched e.slug)
  | es => some (.ambiguous (es.map (·.slug)))

/-- Modelled from the spec: the Deduplicator — domain rule first, then slug
rule, then fuzzy name matching. -/
def dedup (score : String → String → ℚ) (r : SourceRecord)
    (store : List CanonicalEntity) : MatchDecision :=
  match resolveExact (domainMatches r store) with
  | some d => d
  | none =>
    match resolveExact (slugMatches r store) with
    | some d => d
    | none => fuzzyResolve (fuzzyCandidates score r store)

/-- The pipeline's outcome for one processed record. -/
inductive MergeOutcome
  | created (slug : String)
  | merged (slug : String)
  | ambiguous (slugs : List String)
  | discovered (name : String)
deriving DecidableEq, Repr

/-- A fresh CanonicalEntity with no populated fields. -/
def emptyEntity (slug kind : String) : CanonicalEntity :=
  ⟨slug, kind, fun _ => none, fun _ => none⟩

/-- Creation on first sighting: merge the record into a fresh entity. -/
def createEntity (now : Nat) (r : SourceRecord) : CanonicalEntity :=
  mergeRecord now r (emptyEntity r.hint_slug r.entity_kind)

/-- Modelled from the spec: `process(record)` — deduplicate, then merge into
the matched entity, create a new entity on `NoMatch` (tier 4 only emits a
discovery hint), or hold the record on `Ambiguous` with no merge and no
creation. -/
def process (score : String → String → ℚ) (now : Nat) (r : SourceRecord)
    (store : List CanonicalEntity) : MergeOutcome × List CanonicalEntity :=
  match dedup score r store with
  | .ambiguous ids => (.ambiguous ids, store)
  | .matched s =>
    (.merged s, store.map fun e => if e.slug = s then mergeRecord now r e else e)
  | .noMatch =>
    if r.source_tier = .t4 then (.discovered r.hint_name, store)
    else (.created r.hint_slug, store ++ [createEntity now r])

/-- A batch: processing a list of records in order. -/
def processBatch (score : String → String → ℚ) (rs : List (Nat × SourceRecord))
    (store : List CanonicalEntity) : List CanonicalEntity :=
  rs.foldl (fun st x => (process score x.1 x.2 st).2) store

lemma wf_emptyEntity (slug kind : String) : wfEntity (emptyEntity slug kind) := by
  intro f; simp [emptyEntity]

lemma wf_createEntity (now : Nat) (r : SourceRecord) :
    wfEntity (createEntity now r) :=
  merge_preserves_wf now r _ (wf_emptyEntity _ _)

lemma process_preserves_wf (score : String → String → ℚ) (now : Nat)
    (r : SourceRecord) (store : List CanonicalEntity)
    (h : ∀ e ∈ store, wfEntity e) :
    ∀ e ∈ (process score now r store).2, wfEntity e := by
  intro e he
  simp only [process] at he
  cases hd : dedup score r store with
  | ambiguous ids =>
    rw [hd] at he
    exact h e he
  | matched s =>
    rw [hd] at he
    simp only [List.mem_map] at he
    obtain ⟨e₀, he₀, rfl⟩ := he
    by_cases hs : e₀.slug = s
    · simpa [hs] using merge_preserves_wf now r e₀ (h e₀ he₀)
    · simpa [hs] using h e₀ he₀
  | noMatch =>
    rw [hd] at he
    by_cases ht : r.source_tier = .t4
    · simp only [ht, if_true] at he
      exact h e he
    · simp only [ht, if_false, List.mem_append, List.mem_singleton] at he
      rcases he with he | rfl
      · exact h e he
      · exact wf_createEntity now r

lemma processBatch_preserves_wf (score : String → String → ℚ)
    (rs : List (Nat × SourceRecord)) (store : List CanonicalEntity)
    (h : ∀ e ∈ store, wfEntity e) :
    ∀ e ∈ processBatch score rs store, wfEntity e := by
  induction rs generalizing store with
  | nil => exact h
  | cons x xs ih =>
    exact ih _ (process_preserves_wf score x.1 x.2 store h)

lemma process_of_ambiguous (score : String → String → ℚ) (now : Nat)
    (r : SourceRecord) (store : List CanonicalEntity) (ids : List String)
    (hd : dedup score r store = .ambiguous ids) :
    (process score now r store).2 = store := by
  simp [process, hd]

lemma dedup_fuzzy_of_no_exact (score : String → String → ℚ) (r : SourceRecord)
    (store : List CanonicalEntity) (h1 : domainMatches r store = [])
    (h2 : slugMatches r store = []) :
    dedup score r store = fuzzyResolve (fuzzyCandidates score r store) := by
  simp [dedup, h1, h2, resolveExact]

/-! ## ConfidenceGate

Modelled from the spec: the gate filters a proposed tier-3 field→value map
against a parallel field→confidence map.  Factual fields accept only at
confidence ≥ 0.9, inferential fields at ≥ 0.5; a field with no confidence
entry is dropped, as is any field outside the fixed classification. -/

/-- Modelled from the spec: the fixed enumeration of factual fields —
objectively verifiable point facts (founding year, headcount bracket,
funding amounts, named individuals, URLs). -/
def FACTUAL_FIELDS : List String :=
  ["founded_year", "headcount", "funding_total", "key_people",
   "repository_url", "api_docs_url", "website"]

/-- Modelled from the spec: the fixed enumeration of inferential fields —
classification, tagging, summarization, translation. -/
def INFERENCE_FIELDS : List String :=
  ["category", "tags", "description", "summary", "translation"]

/-- Modelled from the spec: the ConfidenceGate.  Each proposed field is kept,
still paired with its original confidence, exactly when its confidence is
present and meets the class threshold. -/
def confidenceGate (proposed : List (String × String)) (conf : String → Option ℚ) :
    List (String × String × ℚ) :=
  proposed.filterMap fun fv =>
    match conf fv.1 with
    | none => none
    | some c =>
      if fv.1 ∈ FACTUAL_FIELDS then
        if (9 : ℚ) / 10 ≤ c then some (fv.1, fv.2, c) else none
      else if fv.1 ∈ INFERENCE_FIELDS then
        if (1 : ℚ) / 2 ≤ c then some (fv.1, fv.2, c) else none
      else none

/-! ## Normalizer

Modelled from the spec: pure, total canonicalization of names, URLs, country
names and slugs; inputs that cannot be normalized degrade to null rather than
raising. -/

/-- Outer-whitespace trimming on character lists. -/
def trimChars (l : List Char) : List Char :=
  ((l.dropWhile Char.isWhitespace).reverse.dropWhile Char.isWhitespace).reverse

/-- Whitespace-separated words of a character list (the accumulator holds the
current word reversed); empty words are not produced. -/
def wordsAux : List Char → List Char → List (List Char)
  | [], acc => if acc.isEmpty then [] else [acc.reverse]
  | c :: cs, acc =>
    if c.isWhitespace then
      if acc.isEmpty then wordsAux cs [] else acc.reverse :: wordsAux cs []
    else wordsAux cs (c :: acc)

/-- Joining chunks with a separator character. -/
def joinWith (sep : Char) : List (List Char) → List Char
  | [] => []
  | [w] => w
  | w :: ws => w ++ sep :: joinWith sep ws

/-- Modelled from the spec: trim outer whitespace and collapse internal
whitespace runs, preserving the remaining content unchanged. -/
def normalize_name (raw : String) : String :=
  String.mk (joinWith ' ' (wordsAux raw.toList []))

/-- Does the second list start with the first? -/
def startsWithChars : List Char → List Char → Bool
  | [], _ => true
  | _ :: _, [] => false
  | p :: ps, c :: cs => p == c && startsWithChars ps cs

/-- Does the list end with the given suffix? -/
def endsWithChars (suf l : List Char) : Bool :=
  startsWithChars suf.reverse l.reverse

/-- Splitting a character list on a separator (the accumulator holds the
current chunk reversed); like `splitOn`, it always yields at least one chunk. -/
def splitOnCharAux (sep : Char) : List Char → List Char → List (List Char)
  | [], acc => [acc.reverse]
  | c :: cs, acc =>
    if c == sep then acc.reverse :: splitOnCharAux sep cs []
    else splitOnCharAux sep cs (c :: acc)

/-- Splitting a character list on a separator character. -/
def splitOnChar (sep : Char) (l : List Char) : List (List Char) :=
  splitOnCharAux sep l []

/-- The parts of a parsed http(s) URL: scheme security, host (possibly with an
explicit port), path segments and query parameters. -/
structure UrlParts where
  secure : Bool
  host : List Char
  path : List (List Char)
  query : List (List Char)
deriving DecidableEq, Repr

/-- Splitting the remainder of a URL after its scheme into host, path and
query; fails on an empty host. -/
def parseAfterScheme (secure : Bool) (s : List Char) : Except String UrlParts :=
  match splitOnChar '?' s with
  | [] => .error "no host"
  | hp :: qs =>
    match splitOnChar '/' hp with
    | [] => .error "no host"
    | host :: segs =>
      if host.isEmpty then .error "empty host"
      else
        .ok ⟨secure, host, segs,
          if qs.isEmpty then [] else splitOnChar '&' (joinWith '?' qs)⟩

/-- Modelled from the spec: the URL parser behind `normalize_url`; it rejects
empty input and anything that is not an http(s) URL with a nonempty host. -/
def parseUrl (raw : String) : Except String UrlParts :=
  let r := trimChars raw.toList
  if r.isEmpty then .error "empty input"
  else if startsWithChars "https://".toList r then parseAfterScheme true (r.drop 8)
  else if startsWithChars "http://".toList r then parseAfterScheme false (r.drop 7)
  else .error "unsupported scheme"

/-- Default-port stripping: `:443` for https, `:80` for http. -/
def stripDefaultPort (secure : Bool) (host : List Char) : List Char :=
  if secure && endsWithChars ":443".toList host then host.take (host.length - 4)
  else if !secure && endsWithChars ":80".toList host then host.take (host.length - 3)
  else host

/-- Tracking query parameters that normalization removes. -/
def isTrackingParam (p : List Char) : Bool :=
  startsWithChars "utm_".toList p || startsWithChars "fbclid".toList p ||
    startsWithChars "gclid".toList p

/-- Trailing-slash removal: trailing empty path segments are dropped. -/
def dropTrailingEmpty (l : List (List Char)) : List (List Char) :=
  (l.reverse.dropWhile List.isEmpty).reverse

/-- Reassembling a parsed URL in canonical form: lower-cased host, default
port stripped, tracking parameters and trailing slashes removed. -/
def rebuildUrl (u : UrlParts) : String :=
  let host := stripDefaultPort u.secure (u.host.map Char.toLower)
  let segs := dropTrailingEmpty u.path
  let q := u.query.filter (fun p => !isTrackingParam p)
  String.mk
    ((if u.secure then "https://".toList else "http://".toList) ++ host ++
      (if segs.isEmpty then [] else '/' :: joinWith '/' segs) ++
      (if q.isEmpty then [] else '?' :: joinWith '&' q))

/-- Modelled from the spec: `normalize_url` — canonicalize a raw URL, or
return null for malformed or empty input (malformed input is not an error). -/
def normalize_url (raw : String) : Option String :=
  match parseUrl raw with
  | .error _ => none
  | .ok u => some (rebuildUrl u)

/-- Modelled from the spec: the free-text country alias table mapping
abbreviations and native-language names to fixed ISO country names. -/
def COUNTRY_ALIASES : List (String × String) :=
  [("usa", "United States"), ("us", "United States"), ("u.s.", "United States"),
   ("united states", "United States"), ("united states of america", "United States"),
   ("uk", "United Kingdom"), ("united kingdom", "United Kingdom"),
   ("england", "United Kingdom"),
   ("中国", "China"), ("cn", "China"), ("china", "China"),
   ("germany", "Germany"), ("deutschland", "Germany"), ("de", "Germany"),
   ("france", "France"), ("fr", "France"),
   ("japan", "Japan"), ("日本", "Japan"),
   ("canada", "Canada"), ("ca", "Canada"),
   ("india", "India"), ("israel", "Israel"), ("singapore", "Singapore")]

/-- Modelled from the spec: `normalize_country` — a deny-by-default classifier
over the alias table; unrecognized input maps to null, never passed through. -/
def normalize_country (raw : String) : Option String :=
  (COUNTRY_ALIASES.find?
      (fun kv => kv.1.toList == (trimChars raw.toList).map Char.toLower)).map (·.2)

/-- One slug character: lowercase alphanumerics survive, everything else
becomes a hyphen. -/
def slugChar (c : Char) : Char :=
  if c.isLower || c.isDigit then c else '-'

/-- Collapse runs of hyphens into single hyphens. -/
def squeezeHyphens : List Char → List Char
  | [] => []
  | [c] => [c]
  | c :: d :: rest =>
    if c == '-' && d == '-' then squeezeHyphens (d :: rest)
    else c :: squeezeHyphens (d :: rest)

/-- Trim leading and trailing hyphens. -/
def trimHyphens (l : List Char) : List Char :=
  ((l.dropWhile (· == '-')).reverse.dropWhile (· == '-')).reverse

/-- Modelled from the spec: `derive_slug` — lower-case, replace runs of
non-`[a-z0-9]` characters by single hyphens and trim outer hyphens. -/
def derive_slug (name : String) : String :=
  String.mk (trimHyphens (squeezeHyphens ((name.toList.map Char.toLower).map slugChar)))

/-! ## Website read interface

Embedded from `website/src/lib/data.ts` (`getCompanyBySlug`) and its product
counterpart: the slug is validated against `/^[a-z0-9-]+$/` before any file
access, then exactly `<entity-dir>/<slug>.json` is read.  The filesystem is a
partial map from paths to contents, and each accessor also reports the list
of paths it touched. -/

/-- The regular expression `/^[a-z0-9-]+$/` of `data.ts`. -/
def slugPattern (s : String) : Bool :=
  !s.isEmpty && s.toList.all (fun c => c.isLower || c.isDigit || c == '-')

/-- `path.join(process.cwd(), "..", "data", "companies")` relative to the
website directory. -/
def COMPANIES_DIR : String := "../data/companies"

/-- `path.join(process.cwd(), "..", "data", "products")` relative to the
website directory. -/
def PRODUCTS_DIR : String := "../data/products"

/-- A filesystem: a partial map from paths to file contents. -/
def FsModel : Type := String → Option String

/-- `getCompanyBySlug` from `lib/data.ts`: throw on a slug that fails the
pattern, otherwise read `COMPANIES_DIR/<slug>.json`.  The second component
lists the file accesses performed. -/
def getCompanyBySlug (fs : FsModel) (slug : String) :
    Except String String × List String :=
  if slugPattern slug then
    let p := COMPANIES_DIR ++ "/" ++ slug ++ ".json"
    (match fs p with
     | some raw => .ok raw
     | none => .error "ENOENT", [p])
  else (.error ("Invalid slug: " ++ slug), [])

/-- `getProductBySlug` from the product variant of `lib/data.ts`. -/
def getProductBySlug (fs : FsModel) (slug : String) :
    Except String String × List String :=
  if slugPattern slug then
    let p := PRODUCTS_DIR ++ "/" ++ slug ++ ".json"
    (match fs p with
     | some raw => .ok raw
     | none => .error "ENOENT", [p])
  else (.error ("Invalid slug: " ++ slug), [])

/-! ## Concrete instances used to exercise the theorems -/

/-- A tier-1 provenance entry as written by the Wikidata source. -/
def provWikidata : Provenance := ⟨"wikidata", .t1, 95 / 100, 10⟩

/-- An entity whose name and founding year were written at tier 1. -/
def entAcme : CanonicalEntity :=
  ⟨"acme", "company",
    fun f => if f = "name" then some "Acme" else
      if f = "founded_year" then some "2015" else none,
    fun f => if f = "name" then some provWikidata else
      if f = "founded_year" then some provWikidata else none⟩

/-- A tier-2 record proposing a conflicting founding year. -/
def recTechcrunch : SourceRecord :=
  ⟨"techcrunch", .t2, "company", [("founded_year", "2016")],
    fun _ => 75 / 100, 5, "Acme", none, "acme"⟩

/-- A tier-3 (machine-inferred) record proposing a founding year and a
category. -/
def recLlm : SourceRecord :=
  ⟨"llm-enrichment", .t3, "company",
    [("founded_year", "2019"), ("category", "ai-search")],
    fun _ => 1 / 2, 7, "Acme", none, "acme"⟩

/-- A tier-4 (discovery-only) record. -/
def recJobs : SourceRecord :=
  ⟨"indeed", .t4, "company", [("founded_year", "1999")],
    fun _ => 0, 8, "Acme Corp", none, "acme-corp"⟩

/-- An indexed entity named "Acme AI". -/
def entFuzzyA : CanonicalEntity :=
  ⟨"acme-ai", "company", fun f => if f = "name" then some "Acme AI" else none,
    fun f => if f = "name" then some provWikidata else none⟩

/-- An indexed entity named "Acme Labs". -/
def entFuzzyB : CanonicalEntity :=
  ⟨"acme-labs", "company", fun f => if f = "name" then some "Acme Labs" else none,
    fun f => if f = "name" then some provWikidata else none⟩

/-- A similarity measure scoring 0.90 against "Acme AI" and 0.89 against
"Acme Labs". -/
def fuzzyScore : String → String → ℚ :=
  fun _ n => if n = "Acme AI" then 9 / 10 else if n = "Acme Labs" then 89 / 100 else 0

/-- A candidate record with no primary-URL host and a slug matching no
existing entity. -/
def recCand : SourceRecord :=
  ⟨"ycombinator", .t2, "company", [("name", "Acme")],
    fun _ => 75 / 100, 9, "Acme", none, "zzz"⟩

/-- The degenerate similarity measure. -/
def zeroScore : String → String → ℚ := fun _ _ => 0

lemma wf_entAcme : wfEntity entAcme := by
  intro f
  unfold entAcme
  dsimp only
  split_ifs <;> simp

/-- One merge step leaves a field's value and provenance unchanged whenever
the write decision is negative. -/
lemma merge_keeps_of_noWrite (now : Nat) (r : SourceRecord) (e : CanonicalEntity)
    (f : String) (hsw : shouldWrite r.source_tier (e.prov f) = false) :
    (mergeRecord now r e).value f = e.value f ∧
      (mergeRecord now r e).prov f = e.prov f := by
  constructor <;> simp only [mergeRecord] <;>
    cases h : lookupField r.fields f <;> simp [hsw]

/-- A whole sequence of no-less-trusted merges leaves a field's value and
provenance unchanged. -/
lemma mergeSeq_keeps_of_le (rs : List (Nat × SourceRecord)) (e : CanonicalEntity)
    (f : String) (q : Provenance) (hq : e.prov f = some q)
    (hall : ∀ x ∈ rs, q.tier.toNat ≤ x.2.source_tier.toNat) :
    (mergeSeq rs e).value f = e.value f ∧ (mergeSeq rs e).prov f = e.prov f := by
  induction rs generalizing e with
  | nil => exact ⟨rfl, rfl⟩
  | cons x xs ih =>
    have hx := hall x (by simp)
    have hstep := merge_keeps_of_le x.1 x.2 e f q hq hx
    have hq' : (mergeRecord x.1 x.2 e).prov f = some q := by rw [hstep.2, hq]
    have hrec := ih (mergeRecord x.1 x.2 e) hq' (fun y hy => hall y (by simp [hy]))
    constructor
    · calc (mergeSeq (x :: xs) e).value f
          = (mergeSeq xs (mergeRecord x.1 x.2 e)).value f := rfl
        _ = (mergeRecord x.1 x.2 e).value f := hrec.1
        _ = e.value f := hstep.1
    · calc (mergeSeq (x :: xs) e).prov f
          = (mergeSeq xs (mergeRecord x.1 x.2 e)).prov f := rfl
        _ = (mergeRecord x.1 x.2 e).prov f := hrec.2
        _ = e.prov f := hstep.2

/-! ## The claims -/

/-- C1: Tier monotonicity of the TieredMerger — once a field carries
provenance at tier N, any sequence of merges by records at tiers ≥ N (over
arbitrary interleavings) leaves the field's value and provenance unchanged,
and a single merge can change the field's value only when the incoming
record's tier is strictly lower (more trusted) than N. -/
theorem tier_monotonicity (e : CanonicalEntity) (f : String) (q : Provenance)
    (hq : e.prov f = some q) :
    (∀ rs : List (Nat × SourceRecord),
        (∀ x ∈ rs, q.tier.toNat ≤ x.2.source_tier.toNat) →
        (mergeSeq rs e).value f = e.value f ∧ (mergeSeq rs e).prov f = e.prov f) ∧
    (∀ (now : Nat) (r : SourceRecord),
        (mergeRecord now r e).value f ≠ e.value f →
        r.source_tier.toNat < q.tier.toNat) :=
  ⟨fun rs hall => mergeSeq_keeps_of_le rs e f q hq hall,
   fun now r hch => merge_changes_lt now r e f q hq hch⟩

/-- Witness for C1 at the spec's scenario 1: `founded_year` set at tier 1
stays `2015` across a tier-2 then a tier-3 merge attempt. -/
theorem tier_monotonicity_witness :
    entAcme.prov "founded_year" = some provWikidata ∧
    (mergeSeq [(5, recTechcrunch), (7, recLlm)] entAcme).value "founded_year" =
      some "2015" := by
  have h := tier_monotonicity entAcme "founded_year" provWikidata rfl
  have h2 := h.1 [(5, recTechcrunch), (7, recLlm)] (by
    intro x hx
    simp only [List.mem_cons, List.not_mem_nil, or_false] at hx
    rcases hx with rfl | rfl <;> decide)
  refine ⟨rfl, ?_⟩
  rw [h2.1]
  rfl

/-- C2: Tier-3 non-destructiveness — on a well-formed entity, a tier-3 merge
leaves every populated field's value and provenance entry unchanged, and any
field a tier-3 merge does change was previously unset. -/
theorem tier3_non_destructive (now : Nat) (r : SourceRecord) (e : CanonicalEntity)
    (ht : r.source_tier = .t3) (hwf : wfEntity e) :
    (∀ (f v : String), e.value f = some v →
        (mergeRecord now r e).value f = some v ∧
          (mergeRecord now r e).prov f = e.prov f) ∧
    (∀ f : String, (mergeRecord now r e).value f ≠ e.value f →
        e.value f = none) := by
  have keeps : ∀ (f v : String), e.value f = some v →
      (mergeRecord now r e).value f = e.value f ∧
        (mergeRecord now r e).prov f = e.prov f := by
    intro f v hv
    have hps : (e.prov f).isSome := (hwf f).mp (by simp [hv])
    obtain ⟨q, hq⟩ := Option.isSome_iff_exists.mp hps
    have hsw : shouldWrite r.source_tier (e.prov f) = false := by
      rw [hq, ht]; exact shouldWrite_t3 q
    exact merge_keeps_of_noWrite now r e f hsw
  constructor
  · intro f v hv
    have h := keeps f v hv
    exact ⟨by rw [h.1, hv], h.2⟩
  · intro f hch
    by_contra hne
    obtain ⟨v, hv⟩ := Option.ne_none_iff_exists'.mp hne
    exact hch (keeps f v hv).1

/-- Witness for C2: a tier-3 record proposing `founded_year = "2019"` leaves
the tier-1 value `"2015"` and its provenance untouched. -/
theorem tier3_non_destructive_witness :
    recLlm.source_tier = .t3 ∧
    entAcme.value "founded_year" = some "2015" ∧
    (mergeRecord 7 recLlm entAcme).value "founded_year" = some "2015" ∧
    (mergeRecord 7 recLlm entAcme).prov "founded_year" =
      entAcme.prov "founded_year" := by
  have h := tier3_non_destructive 7 recLlm entAcme rfl wf_entAcme
  have h2 := h.1 "founded_year" "2015" rfl
  exact ⟨rfl, rfl, h2.1, h2.2⟩

/-- C3: Provenance completeness — starting from a store of well-formed
entities, every entity after any batch of processed records is well-formed
(a populated field has exactly one provenance entry, an unpopulated field has
none), and every single merge operation preserves this predicate. -/
theorem provenance_completeness (score : String → String → ℚ)
    (rs : List (Nat × SourceRecord)) (store : List CanonicalEntity)
    (h : ∀ e ∈ store, wfEntity e) :
    (∀ e ∈ processBatch score rs store, wfEntity e) ∧
    (∀ (now : Nat) (r : SourceRecord) (e : CanonicalEntity),
        wfEntity e → wfEntity (mergeRecord now r e)) :=
  ⟨processBatch_preserves_wf score rs store h,
   fun now r e hw => merge_preserves_wf now r e hw⟩

/-- Witness for C3: a concrete two-record batch over a one-entity store. -/
theorem provenance_completeness_witness :
    (∀ e ∈ [entAcme], wfEntity e) ∧
    (∀ e ∈ processBatch zeroScore [(5, recTechcrunch), (7, recLlm)] [entAcme],
        wfEntity e) := by
  have hstore : ∀ e ∈ [entAcme], wfEntity e := by
    intro e he
    simp only [List.mem_singleton] at he
    subst he
    exact wf_entAcme
  exact ⟨hstore,
    (provenance_completeness zeroScore [(5, recTechcrunch), (7, recLlm)]
      [entAcme] hstore).1⟩

/-- C4: ConfidenceGate thresholds — a proposed field is kept (with its
original confidence) exactly when its confidence is present and meets its
class threshold: ≥ 0.9 for factual fields, ≥ 0.5 for inferential fields; in
particular a factual `founded_year` proposed at confidence 0.7 is rejected
and the gate's output leaves it unset. -/
theorem confidence_gate_thresholds :
    (∀ (proposed : List (String × String)) (conf : String → Option ℚ)
        (f v : String) (c : ℚ),
      (f, v, c) ∈ confidenceGate proposed conf ↔
        (f, v) ∈ proposed ∧ conf f = some c ∧
          ((f ∈ FACTUAL_FIELDS ∧ (9 : ℚ) / 10 ≤ c) ∨
            (f ∉ FACTUAL_FIELDS ∧ f ∈ INFERENCE_FIELDS ∧ (1 : ℚ) / 2 ≤ c))) ∧
    confidenceGate [("founded_year", "2019")] (fun _ => some ((7 : ℚ) / 10)) = [] := by
  constructor
  · intro proposed conf f v c
    constructor
    · intro hmem
      simp only [confidenceGate, List.mem_filterMap] at hmem
      obtain ⟨⟨a, b⟩, hab, hg⟩ := hmem
      cases hc : conf a with
      | none => rw [hc] at hg; exact Option.noConfusion hg
      | some c' =>
        rw [hc] at hg
        dsimp only at hg
        split_ifs at hg with hf h9 hi h5
        all_goals
          first
            | exact Option.noConfusion hg
            | (simp only [Option.some.injEq, Prod.mk.injEq] at hg
               obtain ⟨rfl, rfl, rfl⟩ := hg
               refine ⟨hab, hc, ?_⟩
               first
                 | exact Or.inl ⟨hf, h9⟩
                 | exact Or.inr ⟨hf, hi, h5⟩)
    · rintro ⟨hmem, hconf, hcase⟩
      simp only [confidenceGate, List.mem_filterMap]
      refine ⟨(f, v), hmem, ?_⟩
      dsimp only
      rw [hconf]
      dsimp only
      rcases hcase with ⟨hf, h9⟩ | ⟨hnf, hi, h5⟩
      · rw [if_pos hf, if_pos h9]
      · rw [if_neg hnf, if_pos hi, if_pos h5]
  · norm_num [confidenceGate, FACTUAL_FIELDS, INFERENCE_FIELDS]

/-- C5: the ConfidenceGate drops any field whose confidence entry is missing,
whatever its classification: no confidence means no acceptance. -/
theorem confidence_gate_requires_confidence
    (proposed : List (String × String)) (conf : String → Option ℚ) (f : String)
    (hnone : conf f = none) :
    ∀ (v : String) (c : ℚ), (f, v, c) ∉ confidenceGate proposed conf := by
  intro v c hmem
  simp only [confidenceGate, List.mem_filterMap] at hmem
  obtain ⟨⟨a, b⟩, hab, hg⟩ := hmem
  cases hc : conf a with
  | none => rw [hc] at hg; exact Option.noConfusion hg
  | some c' =>
    rw [hc] at hg
    dsimp only at hg
    split_ifs at hg
    all_goals
      first
        | exact Option.noConfusion hg
        | (simp only [Option.some.injEq, Prod.mk.injEq] at hg
           obtain ⟨rfl, rfl, rfl⟩ := hg
           rw [hnone] at hc
           exact Option.noConfusion hc)

/-- Witness for C5: a field outside both enumerations, absent from the
confidence map, is excluded from the gate's output. -/
theorem confidence_gate_requires_confidence_witness :
    (fun f => if f = "category" then some (1 : ℚ) else none) "mystery_field" = none ∧
    ("mystery_field", "x", (1 : ℚ)) ∉
      confidenceGate [("mystery_field", "x")]
        (fun f => if f = "category" then some (1 : ℚ) else none) :=
  ⟨rfl, confidence_gate_requires_confidence [("mystery_field", "x")]
    (fun f => if f = "category" then some (1 : ℚ) else none) "mystery_field" rfl "x" 1⟩

/-- C6: Deduplicator fuzzy-match ambiguity margin — when neither the domain
rule nor the slug rule fires and at least two entities score above the 0.85
threshold, the decision is `matched top` (the genuine highest scorer) only
when the top score exceeds the runner-up's by at least 0.05; otherwise the
decision is ambiguous and processing the record changes no entity and
creates none. -/
theorem dedup_fuzzy_ambiguity_margin (score : String → String → ℚ)
    (r : SourceRecord) (store : List CanonicalEntity)
    (c d : String × ℚ) (cs : List (String × ℚ))
    (top second : String × ℚ) (rest : List (String × ℚ))
    (h1 : domainMatches r store = []) (h2 : slugMatches r store = [])
    (h3 : fuzzyCandidates score r store = c :: d :: cs)
    (h4 : pickTopAux c (d :: cs) = (top, second :: rest)) :
    top ∈ c :: d :: cs ∧
    (∀ x ∈ c :: d :: cs, x.2 ≤ top.2) ∧
    ((pickTopAux second rest).1.2 + 1 / 20 ≤ top.2 →
      dedup score r store = .matched top.1) ∧
    (top.2 < (pickTopAux second rest).1.2 + 1 / 20 →
      dedup score r store = .ambiguous ((c :: d :: cs).map Prod.fst) ∧
        ∀ now : Nat, (process score now r store).2 = store) := by
  have hmem := pickTopAux_fst_mem c (d :: cs)
  have hle := pickTopAux_le c (d :: cs)
  rw [h4] at hmem hle
  have hded : dedup score r store = fuzzyResolve (c :: d :: cs) := by
    rw [dedup_fuzzy_of_no_exact score r store h1 h2, h3]
  have hres : fuzzyResolve (c :: d :: cs) =
      if (pickTopAux second rest).1.2 + 1 / 20 ≤ top.2 then .matched top.1
      else .ambiguous ((c :: d :: cs).map Prod.fst) := by
    simp only [fuzzyResolve, h4]
  refine ⟨hmem, hle, ?_, ?_⟩
  · intro hmargin
    rw [hded, hres, if_pos hmargin]
  · intro hmargin
    have hneg : ¬ ((pickTopAux second rest).1.2 + 1 / 20 ≤ top.2) :=
      not_le.mpr hmargin
    have hamb : dedup score r store = .ambiguous ((c :: d :: cs).map Prod.fst) := by
      rw [hded, hres, if_neg hneg]
    exact ⟨hamb, fun now => process_of_ambiguous score now r store _ hamb⟩

/-- Witness for C6 at the spec's scenario 5: fuzzy scores 0.90 and 0.89
(margin 0.01 < 0.05) yield `ambiguous` and the store is unchanged. -/
theorem dedup_fuzzy_ambiguity_margin_witness :
    dedup fuzzyScore recCand [entFuzzyA, entFuzzyB] =
      .ambiguous ["acme-ai", "acme-labs"] ∧
    (process fuzzyScore 9 recCand [entFuzzyA, entFuzzyB]).2 =
      [entFuzzyA, entFuzzyB] := by
  have h := dedup_fuzzy_ambiguity_margin fuzzyScore recCand [entFuzzyA, entFuzzyB]
    ("acme-ai", 9 / 10) ("acme-labs", 89 / 100) [] ("acme-ai", 9 / 10)
    ("acme-labs", 89 / 100) [] rfl rfl
    (by
      have hne : ¬ ("Acme Labs" : String) = "Acme AI" := by decide
      norm_num [fuzzyCandidates, entFuzzyA, entFuzzyB, entityName, fuzzyScore,
        recCand, List.filter_cons, List.filter_nil, hne])
    (by norm_num [pickTopAux])
  have h2 := h.2.2.2 (by norm_num [pickTopAux])
  exact ⟨h2.1, h2.2 9⟩

/-- C7: tier-4 records never populate entity fields — merging a tier-4 record
is the identity on every CanonicalEntity, and processing a tier-4 record
leaves the whole store unchanged (on `noMatch` it only emits a discovery
hint). -/
theorem tier4_never_populates (now : Nat) (r : SourceRecord) (e : CanonicalEntity)
    (score : String → String → ℚ) (store : List CanonicalEntity)
    (ht : r.source_tier = .t4) :
    mergeRecord now r e = e ∧ (process score now r store).2 = store := by
  refine ⟨merge_t4_id now r e ht, ?_⟩
  cases hd : dedup score r store with
  | ambiguous ids => simp [process, hd]
  | matched s =>
    simp only [process, hd]
    have hcong : ∀ e' ∈ store,
        (fun x => if x.slug = s then mergeRecord now r x else x) e' =
          (fun x => x) e' := by
      intro e' _
      by_cases hs : e'.slug = s
      · simp [hs, merge_t4_id now r e' ht]
      · simp [hs]
    rw [List.map_congr_left hcong, List.map_id']
  | noMatch => simp [process, hd, ht]

/-- Witness for C7: a concrete tier-4 record changes neither an entity nor
the store. -/
theorem tier4_never_populates_witness :
    recJobs.source_tier = .t4 ∧
    mergeRecord 8 recJobs entAcme = entAcme ∧
    (process zeroScore 8 recJobs [entAcme]).2 = [entAcme] := by
  have h := tier4_never_populates 8 recJobs entAcme zeroScore [entAcme] rfl
  exact ⟨rfl, h.1, h.2⟩

/-- C8: merge idempotence — merging the same SourceRecord twice produces the
state reached after the first merge (no field churn, no provenance rewrite),
and a record at the same or a less trusted tier than a field's provenance
updates neither the field's value nor its provenance. -/
theorem merge_idempotent (now₁ now₂ : Nat) (r : SourceRecord) (e : CanonicalEntity) :
    mergeRecord now₂ r (mergeRecord now₁ r e) = mergeRecord now₁ r e ∧
    (∀ (f : String) (q : Provenance), e.prov f = some q →
        q.tier.toNat ≤ r.source_tier.toNat →
        (mergeRecord now₁ r e).value f = e.value f ∧
          (mergeRecord now₁ r e).prov f = e.prov f) :=
  ⟨merge_idem now₁ now₂ r e,
   fun f q hq hle => merge_keeps_of_le now₁ r e f q hq hle⟩

lemma slugChar_ok (c : Char) :
    ((slugChar c).isLower || (slugChar c).isDigit || (slugChar c == '-')) = true := by
  by_cases h : (c.isLower || c.isDigit) = true
  · simp [slugChar, h]
  · have h' : (c.isLower || c.isDigit) = false := by
      revert h; cases (c.isLower || c.isDigit) <;> simp
    simp only [slugChar, h', Bool.false_eq_true, if_false]
    decide

lemma squeezeHyphens_subset : ∀ (l : List Char) (x : Char),
    x ∈ squeezeHyphens l → x ∈ l := by
  intro l
  induction l with
  | nil => intro x hx; simpa [squeezeHyphens] using hx
  | cons c rest ih =>
    cases rest with
    | nil => intro x hx; simp only [squeezeHyphens] at hx; exact hx
    | cons d ds =>
      intro x hx
      simp only [squeezeHyphens] at hx
      by_cases h : (c == '-' && d == '-') = true
      · rw [if_pos h] at hx
        exact List.mem_cons_of_mem c (ih x hx)
      · rw [if_neg h] at hx
        rcases List.mem_cons.mp hx with rfl | hx
        · exact List.mem_cons_self _ _
        · exact List.mem_cons_of_mem c (ih x hx)

lemma trimHyphens_subset (l : List Char) (x : Char) (hx : x ∈ trimHyphens l) :
    x ∈ l := by
  simp only [trimHyphens, List.mem_reverse] at hx
  have hx1 : x ∈ (l.dropWhile (fun c => c == '-')).reverse :=
    (List.dropWhile_sublist _).subset hx
  rw [List.mem_reverse] at hx1
  exact (List.dropWhile_sublist _).subset hx1

/-- C9: Normalizer totality and degradation — the normalization operations
are total functions; a raw URL whose parse fails (including the empty string)
normalizes to null rather than an error, `normalize_country` either denies
(null) or returns one of the fixed ISO names of its alias table, and every
character `derive_slug` emits is a lowercase letter, a digit or a hyphen. -/
theorem normalizer_total_degrades (raw : String) :
    (∀ msg, parseUrl raw = .error msg → normalize_url raw = none) ∧
    normalize_url "" = none ∧
    (normalize_country raw = none ∨
      ∃ c, normalize_country raw = some c ∧ c ∈ COUNTRY_ALIASES.map Prod.snd) ∧
    (∀ ch ∈ (derive_slug raw).toList,
      (ch.isLower || ch.isDigit || ch == '-') = true) := by
  refine ⟨?_, rfl, ?_, ?_⟩
  · intro msg h
    simp [normalize_url, h]
  · cases h : COUNTRY_ALIASES.find?
        (fun kv => kv.1.toList == (trimChars raw.toList).map Char.toLower) with
    | none =>
      left
      simp only [normalize_country]
      rw [h]
      rfl
    | some kv =>
      right
      refine ⟨kv.2, ?_, List.mem_map_of_mem _ (List.mem_of_find?_eq_some h)⟩
      simp only [normalize_country]
      rw [h]
      rfl
  · intro ch hch
    have h0 : ch ∈ trimHyphens (squeezeHyphens
        ((raw.toList.map Char.toLower).map slugChar)) := hch
    have h1 := trimHyphens_subset _ _ h0
    have h2 := squeezeHyphens_subset _ _ h1
    obtain ⟨c₀, _, rfl⟩ := List.mem_map.mp h2
    exact slugChar_ok c₀

lemma char_allowed_not_special (c : Char)
    (h : (c.isLower || c.isDigit || c == '-') = true) :
    c ≠ '/' ∧ c ≠ '.' ∧ c.isUpper = false := by
  refine ⟨?_, ?_, ?_⟩
  · rintro rfl; exact absurd h (by decide)
  · rintro rfl; exact absurd h (by decide)
  · simp only [Char.isLower, Char.isDigit, Bool.or_eq_true, Bool.and_eq_true,
      decide_eq_true_eq, beq_iff_eq] at h
    rcases h with (⟨h1, _⟩ | ⟨_, h2⟩) | rfl
    · have hn : ¬ (c.val ≤ 90) := fun hle => absurd (UInt32.le_trans h1 hle) (by decide)
      simp [Char.isUpper, hn]
    · have hn : ¬ ((65 : UInt32) ≤ c.val) :=
        fun hle => absurd (UInt32.le_trans hle h2) (by decide)
      simp [Char.isUpper, hn]
    · decide

/-- C10: the read interface's slug guard — a slug failing `/^[a-z0-9-]+$/`
(the empty string included) makes `getCompanyBySlug` and `getProductBySlug`
throw without touching the filesystem; a slug passing it makes them read
exactly `<entity-dir>/<slug>.json`, and such a slug can contain no `/`, no
`.` and no uppercase letter, so no path outside the data directories is
addressable through the slug parameter. -/
theorem slug_guard_read_interface (slug : String) :
    (slugPattern slug = false →
      ∀ fs : FsModel,
        getCompanyBySlug fs slug = (.error ("Invalid slug: " ++ slug), []) ∧
        getProductBySlug fs slug = (.error ("Invalid slug: " ++ slug), [])) ∧
    (slugPattern slug = true →
      ∀ fs : FsModel,
        (getCompanyBySlug fs slug).2 = [COMPANIES_DIR ++ "/" ++ slug ++ ".json"] ∧
        (getProductBySlug fs slug).2 = [PRODUCTS_DIR ++ "/" ++ slug ++ ".json"]) ∧
    (slugPattern slug = true →
      ∀ c ∈ slug.toList, c ≠ '/' ∧ c ≠ '.' ∧ c.isUpper = false) ∧
    (slug = "" → slugPattern slug = false) := by
  refine ⟨?_, ?_, ?_, ?_⟩
  · intro h fs
    constructor <;> simp [getCompanyBySlug, getProductBySlug, h]
  · intro h fs
    constructor <;> simp [getCompanyBySlug, getProductBySlug, h]
  · intro h c hc
    have hall : ∀ x ∈ slug.toList, (x.isLower || x.isDigit || x == '-') = true := by
      simp only [slugPattern, Bool.and_eq_true, List.all_eq_true] at h
      exact fun x hx => h.2 x hx
    exact char_allowed_not_special c (hall c hc)
  · rintro rfl
    decide

end AIStartups
